import Mathlib

/-!
Verification of the BciPy acquisition buffer server and the OCLM language
model client against their natural-language specification.

The buffer server (`buffer_server.start/append/count/get_data/stop`) is
modelled from the specification, since only its test suite
(`acquisition/tests/buffer_server_test.py`) is present in the sources.
The language-model definitions are shallow embeddings of
`bcipy/language_model/oclm_language_model.py`.
-/

namespace BufferServer

/-- Modelled from the spec: a Record is the atomic unit of data, a
channel-ordered sample vector plus a caller-supplied timestamp
(float samples are modelled as rationals). -/
structure Record where
  data : List ℚ
  timestamp : ℚ
deriving DecidableEq, Repr

/-- Modelled from the spec: one session's state — the channel layout fixed at
creation, the storage identifier naming the durable resource, and the
append-only sequence of records. -/
structure Session where
  channel_names : List String
  storage_id : String
  records : List Record
deriving DecidableEq, Repr

/-- Channel count of a session: derived from the channel-name list supplied
at start. -/
def Session.channelCount (s : Session) : Nat := s.channel_names.length

/-- Modelled from the spec: the error kinds of §7. -/
inductive BufErr where
  | InvalidChannelSet
  | StorageUnavailable
  | ShapeMismatch
  | RangeError
  | UnknownSession
  | SessionClosed
deriving DecidableEq, Repr

/-- Modelled from the spec: the Session Registry state — the map from live
session handles to sessions, plus a counter supplying fresh handles. -/
structure ServerState where
  sessions : List (Nat × Session)
  nextHandle : Nat
deriving DecidableEq, Repr

/-- Look up the session owned by a handle in the registry list. -/
def findSession : List (Nat × Session) → Nat → Option Session
  | [], _ => none
  | (k, s) :: rest, h => if k = h then some s else findSession rest h

/-- Replace the session stored under a handle (all occurrences). -/
def setSession : List (Nat × Session) → Nat → Session → List (Nat × Session)
  | [], _, _ => []
  | (k, s) :: rest, h, s' =>
      if k = h then (k, s') :: setSession rest h s' else (k, s) :: setSession rest h s'

/-- Remove a handle's entry from the registry list. -/
def removeSession : List (Nat × Session) → Nat → List (Nat × Session)
  | [], _ => []
  | (k, s) :: rest, h =>
      if k = h then removeSession rest h else (k, s) :: removeSession rest h

/-- Storage identifiers of the currently live sessions. -/
def liveStorageIds (st : ServerState) : List String :=
  st.sessions.map (fun p => p.2.storage_id)

/-- Modelled from the spec: `start(channel_names, storage_identifier)`
validates that the channel names are non-empty and unique
(`InvalidChannelSet` otherwise), requires the storage identifier not to
collide with a currently live session (`StorageUnavailable` models a
backing-resource failure), allocates a fresh handle and a new empty
session. The state is returned together with the result; on error the
state is unchanged. -/
def start (st : ServerState) (channels : List String) (sid : String) :
    ServerState × Except BufErr Nat :=
  if channels = [] ∨ ¬ channels.Nodup then (st, .error .InvalidChannelSet)
  else if sid ∈ liveStorageIds st then (st, .error .StorageUnavailable)
  else
    ({ sessions := (st.nextHandle, ⟨channels, sid, []⟩) :: st.sessions,
       nextHandle := st.nextHandle + 1 },
     .ok st.nextHandle)

/-- Modelled from the spec: `append(handle, record)` fails with
`UnknownSession` for an absent handle, with `ShapeMismatch` when the data
vector length differs from the session's channel count, and otherwise
appends the record at the end of the session's sequence. -/
def append (st : ServerState) (h : Nat) (r : Record) :
    ServerState × Option BufErr :=
  match findSession st.sessions h with
  | none => (st, some .UnknownSession)
  | some sess =>
      if r.data.length ≠ sess.channelCount then (st, some .ShapeMismatch)
      else
        ({ st with
           sessions := setSession st.sessions h
             { sess with records := sess.records ++ [r] } }, none)

/-- Modelled from the spec: `count(handle)` returns the number of records
currently stored, or `UnknownSession` for an absent handle. -/
def count (st : ServerState) (h : Nat) : Except BufErr Nat :=
  match findSession st.sessions h with
  | none => .error .UnknownSession
  | some sess => .ok sess.records.length

/-- Modelled from the spec: `get_data(handle, start, end)` returns the
ordered sub-sequence of records at positions `[start, end)`; `start`
defaults to 0 and `end` to the current count; it fails with `RangeError`
when `start < 0`, `end < start` or `start` exceeds the current count,
while an `end` beyond the current count is clamped, not an error. -/
def get_data (st : ServerState) (h : Nat) (s? e? : Option Int) :
    Except BufErr (List Record) :=
  match findSession st.sessions h with
  | none => .error .UnknownSession
  | some sess =>
      let n : Int := sess.records.length
      let s : Int := s?.getD 0
      let e : Int := e?.getD n
      if s < 0 ∨ e < s ∨ n < s then .error .RangeError
      else .ok (((sess.records).take (min e n).toNat).drop s.toNat)

/-- Modelled from the spec: `stop(handle)` tears the session down and removes
the registry entry; a second call on an already-removed handle fails with
`UnknownSession`. -/
def stop (st : ServerState) (h : Nat) : ServerState × Option BufErr :=
  match findSession st.sessions h with
  | none => (st, some .UnknownSession)
  | some _ => ({ st with sessions := removeSession st.sessions h }, none)

/-- Run a sequence of appends against one handle, stopping at the first
error (as the test driver's loop would). -/
def appendMany (st : ServerState) (h : Nat) : List Record → ServerState × Option BufErr
  | [] => (st, none)
  | r :: rs =>
      match append st h r with
      | (st', none) => appendMany st' h rs
      | (st', some e) => (st', some e)

/-- Run appends alternating between two handles: the first, third, …
records go to the first handle, the rest to the second. -/
def appendAlternating (st : ServerState) (hA hB : Nat) :
    List Record → ServerState × Option BufErr
  | [] => (st, none)
  | r :: rs =>
      match append st hA r with
      | (st', none) => appendAlternating st' hB hA rs
      | (st', some e) => (st', some e)

/-- The sub-list of elements at even positions (`true`) or odd positions
(`false`). -/
def deal (flag : Bool) : List α → List α
  | [] => []
  | a :: rest => if flag then a :: deal false rest else deal true rest

/-- Modelled from the spec: the request alphabet received in order on a
Session Worker's private channel. -/
inductive Request where
  | rstart (channels : List String) (sid : String)
  | rappend (h : Nat) (r : Record)
  | rcount (h : Nat)
  | rget (h : Nat) (s? e? : Option Int)
  | rstop (h : Nat)
deriving DecidableEq, Repr

/-- Modelled from the spec: execute one request against the server state,
in receipt order; responses are not recorded here, only the state
evolution. -/
def execOne (st : ServerState) : Request → ServerState
  | .rstart channels sid => (start st channels sid).1
  | .rappend h r => (append st h r).1
  | .rcount _ => st
  | .rget _ _ _ => st
  | .rstop h => (stop st h).1

/-- Execute a list of requests strictly in the order received. -/
def execAll (st : ServerState) : List Request → ServerState
  | [] => st
  | q :: qs => execAll (execOne st q) qs

/-- Well-formedness of the registry: every live handle is below the
fresh-handle counter, so a fresh handle never collides with a live or a
previously stopped one. -/
def WFState (st : ServerState) : Prop :=
  ∀ p ∈ st.sessions, p.1 < st.nextHandle

instance (st : ServerState) : Decidable (WFState st) := by
  unfold WFState; infer_instance

end BufferServer

namespace BufferServer

theorem findSession_setSession_self {l : List (Nat × Session)} {h : Nat} {s s' : Session}
    (hf : findSession l h = some s) : findSession (setSession l h s') h = some s' := by
  induction l with
  | nil => simp [findSession] at hf
  | cons p rest ih =>
      obtain ⟨k, t⟩ := p
      by_cases hk : k = h
      · subst hk
        simp [findSession, setSession]
      · simp [findSession, setSession, hk] at hf ⊢
        exact ih hf

theorem findSession_setSession_ne {l : List (Nat × Session)} {h h' : Nat} {s' : Session}
    (hne : h ≠ h') : findSession (setSession l h s') h' = findSession l h' := by
  induction l with
  | nil => simp [findSession, setSession]
  | cons p rest ih =>
      obtain ⟨k, t⟩ := p
      by_cases hk : k = h
      · subst hk
        simp [findSession, setSession, hne, ih]
      · simp [findSession, setSession, hk, ih]

theorem findSession_removeSession_self {l : List (Nat × Session)} {h : Nat} :
    findSession (removeSession l h) h = none := by
  induction l with
  | nil => simp [findSession, removeSession]
  | cons p rest ih =>
      obtain ⟨k, t⟩ := p
      by_cases hk : k = h
      · simp [removeSession, hk, ih]
      · simp [findSession, removeSession, hk, ih]

theorem findSession_removeSession_ne {l : List (Nat × Session)} {h h' : Nat}
    (hne : h ≠ h') : findSession (removeSession l h) h' = findSession l h' := by
  induction l with
  | nil => simp [findSession, removeSession]
  | cons p rest ih =>
      obtain ⟨k, t⟩ := p
      by_cases hk : k = h
      · subst hk
        simp [findSession, removeSession, hne, ih]
      · by_cases hk' : k = h'
        · subst hk'
          simp [findSession, removeSession, hk]
        · simp [findSession, removeSession, hk, hk', ih]

theorem findSession_mem {l : List (Nat × Session)} {h : Nat} {s : Session}
    (hf : findSession l h = some s) : (h, s) ∈ l := by
  induction l with
  | nil => simp [findSession] at hf
  | cons p rest ih =>
      obtain ⟨k, t⟩ := p
      by_cases hk : k = h
      · subst hk
        simp [findSession] at hf
        subst hf
        exact List.mem_cons_self _ _
      · simp [findSession, hk] at hf
        exact List.mem_cons_of_mem _ (ih hf)

theorem setSession_keys {l : List (Nat × Session)} {h : Nat} {s' : Session} :
    (setSession l h s').map Prod.fst = l.map Prod.fst := by
  induction l with
  | nil => simp [setSession]
  | cons p rest ih =>
      obtain ⟨k, t⟩ := p
      by_cases hk : k = h
      · simp [setSession, hk, ih]
      · simp [setSession, hk, ih]

theorem mem_removeSession {l : List (Nat × Session)} {h : Nat} {p : Nat × Session}
    (hp : p ∈ removeSession l h) : p ∈ l := by
  induction l with
  | nil => simp [removeSession] at hp
  | cons q rest ih =>
      obtain ⟨k, t⟩ := q
      by_cases hk : k = h
      · simp [removeSession, hk] at hp
        exact List.mem_cons_of_mem _ (ih hp)
      · simp [removeSession, hk] at hp
        rcases hp with hp | hp
        · exact hp ▸ List.mem_cons_self _ _
        · exact List.mem_cons_of_mem _ (ih hp)

end BufferServer

namespace BufferServer

theorem append_ok_of_shape {st : ServerState} {h : Nat} {r : Record} {sess : Session}
    (hf : findSession st.sessions h = some sess)
    (hlen : r.data.length = sess.channelCount) :
    append st h r =
      ({ st with sessions := (setSession st.sessions h
          { sess with records := sess.records ++ [r] }) }, none) := by
  simp [append, hf, hlen]

theorem append_shape_mismatch {st : ServerState} {h : Nat} {r : Record} {sess : Session}
    (hf : findSession st.sessions h = some sess)
    (hlen : r.data.length ≠ sess.channelCount) :
    append st h r = (st, some .ShapeMismatch) := by
  simp [append, hf, hlen]

theorem append_unknown {st : ServerState} {h : Nat} {r : Record}
    (hf : findSession st.sessions h = none) :
    append st h r = (st, some .UnknownSession) := by
  simp [append, hf]

/-- An append addressed to one handle never changes what any other handle
resolves to. -/
theorem append_preserves_other {st : ServerState} {h h' : Nat} {r : Record}
    (hne : h ≠ h') :
    findSession (append st h r).1.sessions h' = findSession st.sessions h' := by
  unfold append
  cases hf : findSession st.sessions h with
  | none => rfl
  | some sess =>
      by_cases hlen : r.data.length = sess.channelCount
      · simp [hlen, findSession_setSession_ne hne]
      · simp [hlen]

theorem append_preserves_nextHandle (st : ServerState) (h : Nat) (r : Record) :
    (append st h r).1.nextHandle = st.nextHandle := by
  unfold append
  cases hf : findSession st.sessions h with
  | none => rfl
  | some sess =>
      by_cases hlen : r.data.length = sess.channelCount
      · simp [hlen]
      · simp [hlen]

theorem appendMany_cons_ok {st st' : ServerState} {h : Nat} {r : Record} {rs : List Record}
    (hap : append st h r = (st', none)) :
    appendMany st h (r :: rs) = appendMany st' h rs := by
  simp [appendMany, hap]

theorem appendMany_cons_err {st st' : ServerState} {h : Nat} {r : Record} {rs : List Record}
    {e : BufErr} (hap : append st h r = (st', some e)) :
    appendMany st h (r :: rs) = (st', some e) := by
  simp [appendMany, hap]

theorem appendMany_none_find {h : Nat} :
    ∀ (rs : List Record) (st st2 : ServerState) (sess : Session),
      findSession st.sessions h = some sess →
      appendMany st h rs = (st2, none) →
      findSession st2.sessions h =
        some ⟨sess.channel_names, sess.storage_id, sess.records ++ rs⟩ := by
  intro rs
  induction rs with
  | nil =>
      intro st st2 sess hf hap
      simp [appendMany] at hap
      subst hap
      simp [hf]
  | cons r rs ih =>
      intro st st2 sess hf hap
      by_cases hlen : r.data.length = sess.channelCount
      · rw [appendMany_cons_ok (append_ok_of_shape hf hlen)] at hap
        have hf' : findSession (setSession st.sessions h
            { sess with records := sess.records ++ [r] }) h =
            some { sess with records := sess.records ++ [r] } :=
          findSession_setSession_self hf
        have := ih _ _ _ hf' hap
        simpa using this
      · rw [appendMany_cons_err (append_shape_mismatch hf hlen)] at hap
        exact absurd (congrArg Prod.snd hap) (by simp)

theorem appendMany_preserves_other {h h' : Nat} (hne : h ≠ h') :
    ∀ (rs : List Record) (st : ServerState),
      findSession (appendMany st h rs).1.sessions h' = findSession st.sessions h' := by
  intro rs
  induction rs with
  | nil => intro st; simp [appendMany]
  | cons r rs ih =>
      intro st
      rw [appendMany]
      cases hap : append st h r with
      | mk st' e =>
          cases e with
          | none =>
              have : findSession st'.sessions h' = findSession st.sessions h' := by
                have := @append_preserves_other st h h' r hne
                rw [hap] at this
                exact this
              simp [ih, this]
          | some err =>
              have : findSession st'.sessions h' = findSession st.sessions h' := by
                have := @append_preserves_other st h h' r hne
                rw [hap] at this
                exact this
              simpa using this

theorem start_ok_inv {st st' : ServerState} {channels : List String} {sid : String} {h : Nat}
    (hs : start st channels sid = (st', .ok h)) :
    h = st.nextHandle ∧
    st'.sessions = (st.nextHandle, ⟨channels, sid, []⟩) :: st.sessions ∧
    st'.nextHandle = st.nextHandle + 1 := by
  unfold start at hs
  by_cases h1 : channels = [] ∨ ¬ channels.Nodup
  · simp [h1] at hs
  · by_cases h2 : sid ∈ liveStorageIds st
    · simp [h1, h2] at hs
    · simp [h1, h2] at hs
      obtain ⟨hst, hh⟩ := hs
      exact ⟨hh.symm, by rw [← hst], by rw [← hst]⟩

theorem findSession_start {st st' : ServerState} {channels : List String} {sid : String} {h : Nat}
    (hs : start st channels sid = (st', .ok h)) :
    findSession st'.sessions h = some ⟨channels, sid, []⟩ := by
  obtain ⟨hh, hsess, _⟩ := start_ok_inv hs
  rw [hsess, hh, findSession]
  simp

end BufferServer

namespace BufferServer

theorem get_data_all {st : ServerState} {h : Nat} {sess : Session}
    (hf : findSession st.sessions h = some sess) :
    get_data st h none none = .ok sess.records := by
  have h0 : ¬ ((0 : Int) < 0 ∨ (sess.records.length : Int) < 0 ∨
      (sess.records.length : Int) < 0) := by omega
  simp only [get_data, hf, Option.getD_none, Option.getD_some]
  rw [if_neg h0]
  simp

theorem get_data_slice {st : ServerState} {h : Nat} {sess : Session}
    (hf : findSession st.sessions h = some sess) (s e : Nat)
    (hse : s ≤ e) (hen : e ≤ sess.records.length) :
    get_data st h (some (s : Int)) (some (e : Int)) =
      .ok ((sess.records.take e).drop s) := by
  have h0 : ¬ ((s : Int) < 0 ∨ (e : Int) < (s : Int) ∨
      (sess.records.length : Int) < (s : Int)) := by
    omega
  have hmin : min (e : Int) (sess.records.length : Int) = (e : Int) := by
    omega
  simp only [get_data, hf, Option.getD_some]
  rw [if_neg h0, hmin]
  simp

end BufferServer

namespace BufferServer

/-- C1: for every session handle obtained from start, after n successful
append calls and no other appends, count returns exactly n. -/
theorem c1_count_after_appends {st st1 st2 : ServerState} {channels : List String}
    {sid : String} {h : Nat} (rs : List Record)
    (hs : start st channels sid = (st1, .ok h))
    (ha : appendMany st1 h rs = (st2, none)) :
    count st2 h = .ok rs.length := by
  have hf := findSession_start hs
  have hfin := appendMany_none_find rs st1 st2 _ hf ha
  simp [count, hfin]

/-- Concrete instance of the C1 theorem. -/
theorem c1_count_after_appends_witness :
    count (appendMany (start ⟨[], 0⟩ ["ch0"] "buffer_1.db").1 0
      [⟨[1], 0⟩, ⟨[2], 1⟩]).1 0 = .ok 2 :=
  @c1_count_after_appends ⟨[], 0⟩ _ _ ["ch0"] "buffer_1.db" _
    [⟨[1], 0⟩, ⟨[2], 1⟩] rfl rfl

/-- C2: get_data with bounds returns the contiguous sub-sequence of the
appended records of length end − start beginning at position start, in
append order and element-wise equal to what was appended; with both
bounds omitted it returns all appended records. -/
theorem c2_get_data_returns_appended {st st1 st2 : ServerState} {channels : List String}
    {sid : String} {h : Nat} (rs : List Record)
    (hs : start st channels sid = (st1, .ok h))
    (ha : appendMany st1 h rs = (st2, none)) :
    (∀ s e : Nat, s ≤ e → e ≤ rs.length →
       get_data st2 h (some (s : Int)) (some (e : Int)) =
         .ok ((rs.take e).drop s) ∧
       ((rs.take e).drop s).length = e - s ∧
       (∀ i : Nat, i < e - s → ((rs.take e).drop s)[i]? = rs[s + i]?)) ∧
    get_data st2 h none none = .ok rs := by
  have hf := findSession_start hs
  have hfin := appendMany_none_find rs st1 st2 _ hf ha
  simp only at hfin
  constructor
  · intro s e hse hen
    refine ⟨?_, ?_, ?_⟩
    · have := get_data_slice hfin s e hse (by simpa using hen)
      simpa using this
    · simp [List.length_drop, List.length_take]
      omega
    · intro i hi
      rw [List.getElem?_drop, List.getElem?_take_of_lt (by omega)]
  · simpa using get_data_all hfin

/-- Concrete instance of the C2 theorem. -/
theorem c2_get_data_returns_appended_witness :
    get_data (appendMany (start ⟨[], 0⟩ ["ch0"] "buffer_2.db").1 0
        [⟨[1], 0⟩, ⟨[2], 1⟩, ⟨[3], 2⟩]).1 0 (some 1) (some 2) =
      .ok [⟨[2], 1⟩] :=
  ((@c2_get_data_returns_appended ⟨[], 0⟩ _ _ ["ch0"] "buffer_2.db" _
      [⟨[1], 0⟩, ⟨[2], 1⟩, ⟨[3], 2⟩] rfl rfl).1
    1 2 (by decide) (by decide)).1

/-- C3: appending a record whose data length differs from the session's
channel count fails with ShapeMismatch and leaves the store state (hence
count) unchanged. -/
theorem c3_shape_mismatch_no_change {st : ServerState} {h : Nat} {sess : Session}
    {r : Record} (hf : findSession st.sessions h = some sess)
    (hlen : r.data.length ≠ sess.channelCount) :
    append st h r = (st, some .ShapeMismatch) ∧
    count (append st h r).1 h = count st h := by
  refine ⟨append_shape_mismatch hf hlen, ?_⟩
  rw [append_shape_mismatch hf hlen]

/-- Concrete instance of the C3 theorem. -/
theorem c3_shape_mismatch_no_change_witness :
    append ⟨[(0, ⟨["ch0"], "b", []⟩)], 1⟩ 0 ⟨[1, 2], 0⟩ =
      (⟨[(0, ⟨["ch0"], "b", []⟩)], 1⟩, some .ShapeMismatch) :=
  (@c3_shape_mismatch_no_change ⟨[(0, ⟨["ch0"], "b", []⟩)], 1⟩ 0
    ⟨["ch0"], "b", []⟩ ⟨[1, 2], 0⟩ (by decide) (by decide)).1

/-- C4: a positional read fails with RangeError exactly when start < 0,
end < start, or start exceeds the current count; an end beyond the count
is clamped to count, giving the same result as reading up to count. -/
theorem c4_range_semantics {st : ServerState} {h : Nat} {sess : Session}
    (hf : findSession st.sessions h = some sess) :
    (∀ s e : Int, get_data st h (some s) (some e) = .error .RangeError ↔
       (s < 0 ∨ e < s ∨ (sess.records.length : Int) < s)) ∧
    (∀ s e : Int, (sess.records.length : Int) < e →
       get_data st h (some s) (some e) =
         get_data st h (some s) (some (sess.records.length : Int))) := by
  constructor
  · intro s e
    constructor
    · intro herr
      by_contra hcond
      have := herr
      simp only [get_data, hf, Option.getD_some] at this
      rw [if_neg hcond] at this
      exact absurd this (by simp)
    · intro hcond
      simp only [get_data, hf, Option.getD_some]
      rw [if_pos hcond]
  · intro s e hgt
    simp only [get_data, hf, Option.getD_some]
    have hmin1 : min e (sess.records.length : Int) = (sess.records.length : Int) := by
      omega
    have hmin2 : min (sess.records.length : Int) (sess.records.length : Int) =
        (sess.records.length : Int) := min_self _
    rw [hmin1, hmin2]
    by_cases hcond : s < 0 ∨ e < s ∨ (sess.records.length : Int) < s
    · have hcond' : s < 0 ∨ (sess.records.length : Int) < s ∨
          (sess.records.length : Int) < s := by omega
      rw [if_pos hcond, if_pos hcond']
    · have hcond' : ¬ (s < 0 ∨ (sess.records.length : Int) < s ∨
          (sess.records.length : Int) < s) := by omega
      rw [if_neg hcond, if_neg hcond']

/-- Concrete instance of the C4 theorem. -/
theorem c4_range_semantics_witness :
    get_data ⟨[(0, ⟨["ch0"], "b", [⟨[1], 0⟩]⟩)], 1⟩ 0 (some 0) (some 5) =
      get_data ⟨[(0, ⟨["ch0"], "b", [⟨[1], 0⟩]⟩)], 1⟩ 0 (some 0) (some 1) :=
  (@c4_range_semantics ⟨[(0, ⟨["ch0"], "b", [⟨[1], 0⟩]⟩)], 1⟩ 0
    ⟨["ch0"], "b", [⟨[1], 0⟩]⟩ (by decide)).2 0 5
    (by decide)

end BufferServer

namespace BufferServer

theorem deal_true_cons (a : α) (l : List α) :
    deal true (a :: l) = a :: deal false l := by
  simp [deal]

theorem deal_false_cons (a : α) (l : List α) :
    deal false (a :: l) = deal true l := by
  simp [deal]

theorem deal_length (l : List α) :
    (deal true l).length = (l.length + 1) / 2 ∧
    (deal false l).length = l.length / 2 := by
  induction l with
  | nil => simp [deal]
  | cons a rest ih =>
      rw [deal_true_cons, deal_false_cons]
      refine ⟨?_, ?_⟩
      · rw [List.length_cons, List.length_cons, ih.2]
        omega
      · rw [List.length_cons, ih.1]

theorem appendAlternating_cons_ok {st st' : ServerState} {hA hB : Nat} {r : Record}
    {rs : List Record} (hap : append st hA r = (st', none)) :
    appendAlternating st hA hB (r :: rs) = appendAlternating st' hB hA rs := by
  simp [appendAlternating, hap]

theorem appendAlternating_cons_err {st st' : ServerState} {hA hB : Nat} {r : Record}
    {rs : List Record} {e : BufErr} (hap : append st hA r = (st', some e)) :
    appendAlternating st hA hB (r :: rs) = (st', some e) := by
  simp [appendAlternating, hap]

theorem appendAlternating_find :
    ∀ (rs : List Record) (hA hB : Nat) (st st2 : ServerState) (sA sB : Session),
      hA ≠ hB →
      findSession st.sessions hA = some sA →
      findSession st.sessions hB = some sB →
      appendAlternating st hA hB rs = (st2, none) →
      findSession st2.sessions hA =
        some ⟨sA.channel_names, sA.storage_id, sA.records ++ deal true rs⟩ ∧
      findSession st2.sessions hB =
        some ⟨sB.channel_names, sB.storage_id, sB.records ++ deal false rs⟩ := by
  intro rs
  induction rs with
  | nil =>
      intro hA hB st st2 sA sB hne hfA hfB hap
      simp [appendAlternating] at hap
      subst hap
      simp [deal, hfA, hfB]
  | cons r rest ih =>
      intro hA hB st st2 sA sB hne hfA hfB hap
      by_cases hlen : r.data.length = sA.channelCount
      · rw [appendAlternating_cons_ok (append_ok_of_shape hfA hlen)] at hap
        have hfA' : findSession (setSession st.sessions hA
            { sA with records := sA.records ++ [r] }) hA =
            some { sA with records := sA.records ++ [r] } :=
          findSession_setSession_self hfA
        have hfB' : findSession (setSession st.sessions hA
            { sA with records := sA.records ++ [r] }) hB =
            findSession st.sessions hB :=
          findSession_setSession_ne hne
        have := ih hB hA _ st2 sB { sA with records := sA.records ++ [r] }
          (Ne.symm hne) (hfB' ▸ hfB) hfA' hap
        refine ⟨?_, ?_⟩
        · have h2 := this.2
          simp only [deal] at h2 ⊢
          simpa using h2
        · have h1 := this.1
          simp only [deal] at h1 ⊢
          simpa using h1
      · rw [appendAlternating_cons_err (append_shape_mismatch hfA hlen)] at hap
        exact absurd (congrArg Prod.snd hap) (by simp)

/-- C5: two sessions started with distinct storage identifiers are fully
isolated — 200 appends alternating between them leave each with count
100 and records exactly those addressed to it, and an append to one
handle never changes what any other handle resolves to. -/
theorem c5_session_isolation {st st1 st2 st3 : ServerState}
    {ch1 ch2 : List String} {sid1 sid2 : String} {h1 h2 : Nat}
    (rs : List Record)
    (hs1 : start st ch1 sid1 = (st1, .ok h1))
    (hs2 : start st1 ch2 sid2 = (st2, .ok h2))
    (hlen : rs.length = 200)
    (ha : appendAlternating st2 h1 h2 rs = (st3, none)) :
    count st3 h1 = .ok 100 ∧ count st3 h2 = .ok 100 ∧
    findSession st3.sessions h1 = some ⟨ch1, sid1, deal true rs⟩ ∧
    findSession st3.sessions h2 = some ⟨ch2, sid2, deal false rs⟩ ∧
    (∀ (st' : ServerState) (h h' : Nat) (r : Record), h ≠ h' →
       findSession (append st' h r).1.sessions h' = findSession st'.sessions h') := by
  obtain ⟨hh1, hsess1, hnext1⟩ := start_ok_inv hs1
  obtain ⟨hh2, hsess2, hnext2⟩ := start_ok_inv hs2
  have hne : h1 ≠ h2 := by omega
  have hfB : findSession st2.sessions h2 = some ⟨ch2, sid2, []⟩ :=
    findSession_start hs2
  have hfA : findSession st2.sessions h1 = some ⟨ch1, sid1, []⟩ := by
    rw [hsess2, findSession]
    rw [if_neg (by omega)]
    exact findSession_start hs1
  obtain ⟨hres1, hres2⟩ := appendAlternating_find rs h1 h2 st2 st3
    ⟨ch1, sid1, []⟩ ⟨ch2, sid2, []⟩ hne hfA hfB ha
  simp only [List.nil_append] at hres1 hres2
  refine ⟨?_, ?_, hres1, hres2, ?_⟩
  · simp [count, hres1, (deal_length rs).1, hlen]
  · simp [count, hres2, (deal_length rs).2, hlen]
  · intro st' h h' r hne'
    exact append_preserves_other hne'

end BufferServer

namespace BufferServer

set_option maxRecDepth 40000 in
/-- Concrete instance of the C5 theorem. -/
theorem c5_session_isolation_witness :
    count (appendAlternating (start (start ⟨[], 0⟩ ["ch0"] "s1").1 ["ch0"] "s2").1
        0 1 (List.replicate 200 ⟨[1], 0⟩)).1 0 = .ok 100 :=
  (@c5_session_isolation ⟨[], 0⟩ _ _ _ ["ch0"] ["ch0"] "s1" "s2" 0 1
    (List.replicate 200 ⟨[1], 0⟩) rfl rfl (by simp) rfl).1

end BufferServer

namespace BufferServer

theorem stop_none_inv {st st' : ServerState} {h : Nat}
    (hstop : stop st h = (st', none)) :
    st'.sessions = removeSession st.sessions h ∧ st'.nextHandle = st.nextHandle := by
  unfold stop at hstop
  cases hf : findSession st.sessions h with
  | none =>
      rw [hf] at hstop
      exact absurd (congrArg Prod.snd hstop) (by simp)
  | some sess =>
      rw [hf] at hstop
      have := congrArg Prod.fst hstop
      simp at this
      rw [← this]
      exact ⟨rfl, rfl⟩

theorem findSession_after_stop {st st' : ServerState} {h : Nat}
    (hstop : stop st h = (st', none)) :
    findSession st'.sessions h = none := by
  rw [(stop_none_inv hstop).1]
  exact findSession_removeSession_self

/-- C6: after stop(handle) has returned, every subsequent operation against
that handle fails with UnknownSession — append, count, get_data, and a
second stop; no operation on the stopped handle succeeds. -/
theorem c6_stopped_handle_rejected {st st' : ServerState} {h : Nat}
    (hstop : stop st h = (st', none)) :
    (∀ r : Record, append st' h r = (st', some .UnknownSession)) ∧
    count st' h = .error .UnknownSession ∧
    (∀ s? e? : Option Int, get_data st' h s? e? = .error .UnknownSession) ∧
    stop st' h = (st', some .UnknownSession) := by
  have hnone := findSession_after_stop hstop
  refine ⟨?_, ?_, ?_, ?_⟩
  · intro r
    simp [append, hnone]
  · simp [count, hnone]
  · intro s? e?
    simp [get_data, hnone]
  · simp [stop, hnone]

/-- Concrete instance of the C6 theorem. -/
theorem c6_stopped_handle_rejected_witness :
    count (stop ⟨[(0, ⟨["ch0"], "b", []⟩)], 1⟩ 0).1 0 =
      .error .UnknownSession :=
  (@c6_stopped_handle_rejected ⟨[(0, ⟨["ch0"], "b", []⟩)], 1⟩
    ((stop ⟨[(0, ⟨["ch0"], "b", []⟩)], 1⟩ 0).1) 0 rfl).2.1

end BufferServer

namespace BufferServer

theorem append_none_inv {st st' : ServerState} {h : Nat} {r : Record}
    (hap : append st h r = (st', none)) :
    ∃ sess, findSession st.sessions h = some sess ∧
      r.data.length = sess.channelCount ∧
      st'.sessions = setSession st.sessions h
        { sess with records := sess.records ++ [r] } ∧
      st'.nextHandle = st.nextHandle := by
  cases hf : findSession st.sessions h with
  | none =>
      rw [append_unknown hf] at hap
      exact absurd (congrArg Prod.snd hap) (by simp)
  | some sess =>
      by_cases hlen : r.data.length = sess.channelCount
      · rw [append_ok_of_shape hf hlen] at hap
        have hfst := congrArg Prod.fst hap
        simp only at hfst
        refine ⟨sess, rfl, hlen, ?_, ?_⟩
        · rw [← hfst]
        · rw [← hfst]
      · rw [append_shape_mismatch hf hlen] at hap
        exact absurd (congrArg Prod.snd hap) (by simp)

theorem WF_keys_lt {st : ServerState} (hWF : WFState st) {h : Nat} {sess : Session}
    (hf : findSession st.sessions h = some sess) : h < st.nextHandle :=
  hWF _ (findSession_mem hf)

theorem start_sessions_cases (st : ServerState) (channels : List String) (sid : String) :
    (start st channels sid).1.sessions = st.sessions ∨
    (start st channels sid).1.sessions =
      (st.nextHandle, ⟨channels, sid, []⟩) :: st.sessions := by
  unfold start
  split
  · left; rfl
  · split
    · left; rfl
    · right; rfl

theorem start_nextHandle_le (st : ServerState) (channels : List String) (sid : String) :
    st.nextHandle ≤ (start st channels sid).1.nextHandle := by
  unfold start
  split
  · exact le_refl _
  · split
    · exact le_refl _
    · exact Nat.le_succ _

theorem start_nextHandle_cases (st : ServerState) (channels : List String) (sid : String) :
    ((start st channels sid).1.sessions = st.sessions ∧
      (start st channels sid).1.nextHandle = st.nextHandle) ∨
    ((start st channels sid).1.sessions =
        (st.nextHandle, ⟨channels, sid, []⟩) :: st.sessions ∧
      (start st channels sid).1.nextHandle = st.nextHandle + 1) := by
  unfold start
  split
  · left; exact ⟨rfl, rfl⟩
  · split
    · left; exact ⟨rfl, rfl⟩
    · right; exact ⟨rfl, rfl⟩

theorem stop_nextHandle (st : ServerState) (h : Nat) :
    (stop st h).1.nextHandle = st.nextHandle := by
  unfold stop
  cases hf : findSession st.sessions h <;> simp

theorem stop_sessions_cases (st : ServerState) (h : Nat) :
    (stop st h).1.sessions = st.sessions ∨
    (stop st h).1.sessions = removeSession st.sessions h := by
  unfold stop
  cases hf : findSession st.sessions h
  · left; rfl
  · right; rfl

theorem stop_preserves_other {st : ServerState} {h h' : Nat} (hne : h ≠ h') :
    findSession (stop st h).1.sessions h' = findSession st.sessions h' := by
  rcases stop_sessions_cases st h with hc | hc
  · rw [hc]
  · rw [hc, findSession_removeSession_ne hne]

theorem execOne_nextHandle_le (st : ServerState) (q : Request) :
    st.nextHandle ≤ (execOne st q).nextHandle := by
  cases q with
  | rstart channels sid => exact start_nextHandle_le st channels sid
  | rappend h r => exact le_of_eq (append_preserves_nextHandle st h r).symm
  | rcount h => exact le_refl _
  | rget h s? e? => exact le_refl _
  | rstop h => exact le_of_eq (stop_nextHandle st h).symm

theorem WF_execOne {st : ServerState} (hWF : WFState st) (q : Request) :
    WFState (execOne st q) := by
  cases q with
  | rstart channels sid =>
      intro p hp
      have hp' : p ∈ (start st channels sid).1.sessions := hp
      show p.1 < (start st channels sid).1.nextHandle
      rcases start_nextHandle_cases st channels sid with ⟨hs, hn⟩ | ⟨hs, hn⟩
      · rw [hn]
        exact hWF p (hs ▸ hp')
      · rw [hs] at hp'
        rw [hn]
        rcases List.mem_cons.mp hp' with hq | hq
        · rw [hq]; omega
        · have := hWF p hq; omega
  | rappend h r =>
      intro p hp
      have hp' : p ∈ (append st h r).1.sessions := hp
      show p.1 < (append st h r).1.nextHandle
      rw [append_preserves_nextHandle]
      rcases hf : findSession st.sessions h with _ | sess
      · rw [append_unknown hf] at hp'
        exact hWF p hp'
      · by_cases hlen : r.data.length = sess.channelCount
        · rw [append_ok_of_shape hf hlen] at hp'
          simp only at hp'
          have hpk : p.1 ∈ (setSession st.sessions h
              { sess with records := sess.records ++ [r] }).map Prod.fst :=
            List.mem_map.mpr ⟨p, hp', rfl⟩
          rw [setSession_keys] at hpk
          obtain ⟨q, hq, hqk⟩ := List.mem_map.mp hpk
          have := hWF q hq
          omega
        · rw [append_shape_mismatch hf hlen] at hp'
          exact hWF p hp'
  | rcount h => exact hWF
  | rget h s? e? => exact hWF
  | rstop h =>
      intro p hp
      have hp' : p ∈ (stop st h).1.sessions := hp
      show p.1 < (stop st h).1.nextHandle
      rw [stop_nextHandle]
      rcases stop_sessions_cases st h with hc | hc
      · rw [hc] at hp'; exact hWF p hp'
      · rw [hc] at hp'; exact hWF p (mem_removeSession hp')

theorem append_preserves_find_of_none {st : ServerState} {h h' : Nat} {r : Record}
    (hnone : findSession st.sessions h = none) :
    findSession (append st h' r).1.sessions h = none := by
  by_cases he : h' = h
  · subst he
    unfold append
    rw [hnone]
    exact hnone
  · rw [append_preserves_other he]
    exact hnone

theorem dead_execOne {st : ServerState} {h : Nat} (hlt : h < st.nextHandle)
    (hnone : findSession st.sessions h = none) (q : Request) :
    findSession (execOne st q).sessions h = none := by
  cases q with
  | rstart channels sid =>
      rcases start_sessions_cases st channels sid with hc | hc
      · show findSession (start st channels sid).1.sessions h = none
        rw [hc]; exact hnone
      · show findSession (start st channels sid).1.sessions h = none
        rw [hc, findSession]
        rw [if_neg (by omega)]
        exact hnone
  | rappend h' r => exact append_preserves_find_of_none hnone
  | rcount h' => exact hnone
  | rget h' s? e? => exact hnone
  | rstop h' =>
      by_cases he : h' = h
      · subst he
        show findSession (stop st h').1.sessions h' = none
        rcases stop_sessions_cases st h' with hc | hc
        · rw [hc]; exact hnone
        · rw [hc]; exact findSession_removeSession_self
      · show findSession (stop st h').1.sessions h = none
        rw [stop_preserves_other he]
        exact hnone

end BufferServer

namespace BufferServer

/-- One executed request either removes a live session or extends its
record sequence at the end, never reordering or dropping records. -/
theorem live_execOne {st : ServerState} {h : Nat} {sess : Session} (hWF : WFState st)
    (hf : findSession st.sessions h = some sess) (q : Request) :
    findSession (execOne st q).sessions h = none ∨
    ∃ ext, findSession (execOne st q).sessions h =
      some ⟨sess.channel_names, sess.storage_id, sess.records ++ ext⟩ := by
  have hlt : h < st.nextHandle := WF_keys_lt hWF hf
  cases q with
  | rstart channels sid =>
      right
      refine ⟨[], ?_⟩
      show findSession (start st channels sid).1.sessions h =
        some ⟨sess.channel_names, sess.storage_id, sess.records ++ []⟩
      rcases start_sessions_cases st channels sid with hc | hc
      · rw [hc, hf]
        simp
      · rw [hc, findSession]
        rw [if_neg (by omega), hf]
        simp
  | rappend h' r =>
      by_cases he : h' = h
      · subst he
        by_cases hlen : r.data.length = sess.channelCount
        · right
          refine ⟨[r], ?_⟩
          show findSession (append st h' r).1.sessions h' =
            some ⟨sess.channel_names, sess.storage_id, sess.records ++ [r]⟩
          rw [append_ok_of_shape hf hlen]
          simp only
          exact findSession_setSession_self hf
        · right
          refine ⟨[], ?_⟩
          show findSession (append st h' r).1.sessions h' =
            some ⟨sess.channel_names, sess.storage_id, sess.records ++ []⟩
          rw [append_shape_mismatch hf hlen]
          rw [hf]
          simp
      · right
        refine ⟨[], ?_⟩
        show findSession (append st h' r).1.sessions h =
          some ⟨sess.channel_names, sess.storage_id, sess.records ++ []⟩
        rw [append_preserves_other he, hf]
        simp
  | rcount h' =>
      right
      exact ⟨[], by rw [show execOne st (.rcount h') = st from rfl, hf]; simp⟩
  | rget h' s? e? =>
      right
      exact ⟨[], by rw [show execOne st (.rget h' s? e?) = st from rfl, hf]; simp⟩
  | rstop h' =>
      by_cases he : h' = h
      · subst he
        left
        show findSession (stop st h').1.sessions h' = none
        unfold stop
        rw [hf]
        exact findSession_removeSession_self
      · right
        refine ⟨[], ?_⟩
        show findSession (stop st h').1.sessions h =
          some ⟨sess.channel_names, sess.storage_id, sess.records ++ []⟩
        rw [stop_preserves_other he, hf]
        simp

theorem WF_execAll : ∀ (qs : List Request) (st : ServerState),
    WFState st → WFState (execAll st qs) := by
  intro qs
  induction qs with
  | nil => intro st hWF; exact hWF
  | cons q qs ih => intro st hWF; exact ih _ (WF_execOne hWF q)

theorem dead_execAll {h : Nat} : ∀ (qs : List Request) (st : ServerState),
    WFState st → h < st.nextHandle → findSession st.sessions h = none →
    findSession (execAll st qs).sessions h = none := by
  intro qs
  induction qs with
  | nil => intro st _ _ hnone; exact hnone
  | cons q qs ih =>
      intro st hWF hlt hnone
      exact ih _ (WF_execOne hWF q)
        (lt_of_lt_of_le hlt (execOne_nextHandle_le st q))
        (dead_execOne hlt hnone q)

/-- Across any request sequence, a live session's record sequence is only
ever extended at the end (or the session is torn down). -/
theorem live_execAll {h : Nat} : ∀ (qs : List Request) (st : ServerState) (sess : Session),
    WFState st → findSession st.sessions h = some sess →
    findSession (execAll st qs).sessions h = none ∨
    ∃ ext, findSession (execAll st qs).sessions h =
      some ⟨sess.channel_names, sess.storage_id, sess.records ++ ext⟩ := by
  intro qs
  induction qs with
  | nil =>
      intro st sess _ hf
      right
      exact ⟨[], by simp [execAll, hf]⟩
  | cons q qs ih =>
      intro st sess hWF hf
      rcases live_execOne hWF hf q with hdead | ⟨ext, hlive⟩
      · left
        have hlt : h < (execOne st q).nextHandle :=
          lt_of_lt_of_le (WF_keys_lt hWF hf) (execOne_nextHandle_le st q)
        exact dead_execAll qs _ (WF_execOne hWF q) hlt hdead
      · rcases ih (execOne st q) _ (WF_execOne hWF q) hlive with hdead | ⟨ext2, hlive2⟩
        · left; exact hdead
        · right
          refine ⟨ext ++ ext2, ?_⟩
          simp only at hlive2
          show findSession (execAll (execOne st q) qs).sessions h = _
          rw [hlive2]
          simp

end BufferServer

namespace BufferServer

/-- C7: within one session requests execute in receipt order — two appends
are never reordered (the first stays strictly before the second in the
stored sequence), and a read enqueued after an append, with any requests
in between, observes that appended record in its result. -/
theorem c7_request_ordering {st : ServerState} {h : Nat} (hWF : WFState st) :
    (∀ (r1 r2 : Record) (mid : List Request) (st1 st3 : ServerState) (l : List Record),
       append st h r1 = (st1, none) →
       append (execAll st1 mid) h r2 = (st3, none) →
       get_data st3 h none none = .ok l →
       ∃ l1 l2, l = l1 ++ r1 :: (l2 ++ [r2])) ∧
    (∀ (r : Record) (mid : List Request) (st1 : ServerState) (l : List Record),
       append st h r = (st1, none) →
       get_data (execAll st1 mid) h none none = .ok l →
       r ∈ l) := by
  constructor
  · intro r1 r2 mid st1 st3 l hap1 hap2 hget
    obtain ⟨sess, hf, hlen1, hsess1, hnext1⟩ := append_none_inv hap1
    have hf1 : findSession st1.sessions h =
        some { sess with records := sess.records ++ [r1] } := by
      rw [hsess1]
      exact findSession_setSession_self hf
    have hst1 : (append st h r1).1 = st1 := congrArg Prod.fst hap1
    have hWF1 : WFState st1 := hst1 ▸ WF_execOne hWF (.rappend h r1)
    rcases live_execAll mid st1 _ hWF1 hf1 with hdead | ⟨ext, hfm⟩
    · rw [append_unknown hdead] at hap2
      exact absurd (congrArg Prod.snd hap2) (by simp)
    · simp only at hfm
      obtain ⟨sess2, hf2, hlen2, hsess3, hnext3⟩ := append_none_inv hap2
      have hsess2 : sess2 = ⟨sess.channel_names, sess.storage_id,
          (sess.records ++ [r1]) ++ ext⟩ := by
        rw [hfm] at hf2
        exact (Option.some.inj hf2).symm
      have hf3 : findSession st3.sessions h =
          some { sess2 with records := sess2.records ++ [r2] } := by
        rw [hsess3]
        exact findSession_setSession_self hf2
      rw [get_data_all hf3] at hget
      have hl : l = sess2.records ++ [r2] := (Except.ok.inj hget).symm
      refine ⟨sess.records, ext, ?_⟩
      rw [hl, hsess2]
      simp
  · intro r mid st1 l hap1 hget
    obtain ⟨sess, hf, hlen1, hsess1, hnext1⟩ := append_none_inv hap1
    have hf1 : findSession st1.sessions h =
        some { sess with records := sess.records ++ [r] } := by
      rw [hsess1]
      exact findSession_setSession_self hf
    have hst1 : (append st h r).1 = st1 := congrArg Prod.fst hap1
    have hWF1 : WFState st1 := hst1 ▸ WF_execOne hWF (.rappend h r)
    rcases live_execAll mid st1 _ hWF1 hf1 with hdead | ⟨ext, hfm⟩
    · rw [get_data, hdead] at hget
      exact absurd hget (by simp)
    · simp only at hfm
      rw [get_data_all hfm] at hget
      have hl : l = (sess.records ++ [r]) ++ ext := (Except.ok.inj hget).symm
      rw [hl]
      simp

/-- Concrete instance of the C7 theorem. -/
theorem c7_request_ordering_witness :
    ∃ l1 l2, [(⟨[1], 0⟩ : Record), ⟨[2], 1⟩] =
      l1 ++ (⟨[1], 0⟩ : Record) :: (l2 ++ [(⟨[2], 1⟩ : Record)]) :=
  (@c7_request_ordering ⟨[(0, ⟨["ch0"], "b", []⟩)], 1⟩ 0
      (by decide)).1
    ⟨[1], 0⟩ ⟨[2], 1⟩ [Request.rcount 0] _ _ [⟨[1], 0⟩, ⟨[2], 1⟩] rfl rfl rfl

end BufferServer

namespace LangModel

/-- A Python value passed as the `nbest` argument of `LangModel.init`,
as discriminated by the `isinstance(nbest, int)` check. -/
inductive PyVal where
  | vint (n : Int)
  | vstr (s : String)
  | vnone
deriving DecidableEq, Repr

/-- The errors raised by the language-model client
(`bcipy.language_model.errors`). -/
inductive LMErr where
  | NBestError
  | NBestHighValue
  | EvidenceDataStructError
deriving DecidableEq, Repr

/-- The mutable state of a `LangModel` instance: the `domain` attribute
(absent until `init` is called) and the `priors` dictionary, an
insertion-ordered map from return-mode keys to lists of
(symbol, probability) entries, modelling the Python `defaultdict(list)`.
Probabilities are abstracted by a type parameter since the Python floats
pass through (or through `math.e**(-prob)`) unchanged in structure. -/
structure LMState (α : Type) where
  domain : Option String
  priors : List (String × List (String × α))
deriving DecidableEq, Repr

/-- `LangModel.__init__`: the priors dictionary starts empty and `domain`
is not yet set. -/
def initialState (α : Type) : LMState α := ⟨none, []⟩

/-- `LangModel.init(domain, nbest)`: sets `self.domain = domain`, then
raises `NBestError` when `nbest` is not an int and `NBestHighValue` when
`nbest > 4`; returns the state after execution together with the raised
error, if any (an attribute assigned before a raise stays assigned). -/
def init {α : Type} (st : LMState α) (domain : String) (nbest : PyVal) :
    LMState α × Option LMErr :=
  let st' : LMState α := { st with domain := some domain }
  match nbest with
  | .vint n => if 4 < n then (st', some .NBestHighValue) else (st', none)
  | _ => (st', some .NBestError)

/-- `LangModel.reset`: posts a reset request to the server and logs; the
local instance state (in particular `self.priors`) is not touched. -/
def reset {α : Type} (st : LMState α) : LMState α := st

/-- `state_update`'s per-symbol cleaning: `"_"` becomes `"#"`, every other
symbol is lowercased. -/
def pyLower (s : String) : String := ⟨s.data.map Char.toLower⟩

def pyUpper (s : String) : String := ⟨s.data.map Char.toUpper⟩

def cleanSymbol (s : String) : String := if s = "_" then "#" else pyLower s

/-- Clean one inner evidence list: each symbol must be in the alphabet
(otherwise `EvidenceDataStructError` is raised), probabilities and order
are kept. -/
def cleanPairs {α : Type} (alpha : List String) :
    List (String × α) → Except LMErr (List (String × α))
  | [] => .ok []
  | (sym, pr) :: rest =>
      if sym ∈ alpha then
        match cleanPairs alpha rest with
        | .ok tl => .ok ((cleanSymbol sym, pr) :: tl)
        | .error e => .error e
      else .error .EvidenceDataStructError

/-- Clean the nested evidence list of `state_update`. -/
def cleanEvidence {α : Type} (alpha : List String) :
    List (List (String × α)) → Except LMErr (List (List (String × α)))
  | [] => .ok []
  | l :: rest =>
      match cleanPairs alpha l with
      | .ok cl =>
          match cleanEvidence alpha rest with
          | .ok tl => .ok (cl :: tl)
          | .error e => .error e
      | .error e => .error e

/-- The request payload `state_update` sends to the server: the cleaned
evidence together with the return mode, or the raised error. -/
def stateUpdateRequest {α : Type} (alpha : List String)
    (evidence : List (List (String × α))) (return_mode : String) :
    Except LMErr (List (List (String × α)) × String) :=
  match cleanEvidence alpha evidence with
  | .ok cl => .ok (cl, return_mode)
  | .error e => .error e

/-- The server's response to `state_update` / `recent_priors`: the letter
and word entries of the returned JSON dictionary. -/
structure LMOutput (α : Type) where
  letter : List (String × α)
  word : List (String × α)
deriving DecidableEq, Repr

/-- `LangModel.__return_priors(output, return_mode)`: rebinds
`self.priors` to a fresh dictionary, fills its `"letter"` key (uppercasing
symbols and mapping `"#"` back to `"_"`), adds a `"word"` key when the
return mode is not `"letter"`, and returns the new dictionary. In the
non-log domain every probability is passed through `math.e**(-prob)`,
abstracted here by `expNeg`. Accessing `self.domain` before `init` was
called is a Python `AttributeError`, modelled as `none`. -/
def returnPriors {α : Type} (expNeg : α → α) (st : LMState α)
    (out : LMOutput α) (return_mode : String) :
    Option (LMState α × List (String × List (String × α))) :=
  match st.domain with
  | none => none
  | some dom =>
      let letterEntries :=
        if dom = "log" then
          out.letter.map (fun p =>
            if p.1 ≠ "#" then (pyUpper p.1, p.2) else ("_", p.2))
        else
          out.letter.map (fun p =>
            if p.1 ≠ "#" then (pyUpper p.1, expNeg p.2) else ("_", expNeg p.2))
      let wordEntries :=
        if dom = "log" then out.word
        else out.word.map (fun p => (p.1, expNeg p.2))
      let priors :=
        if return_mode ≠ "letter" then
          [("letter", letterEntries), ("word", wordEntries)]
        else [("letter", letterEntries)]
      some ({ st with priors := priors }, priors)

end LangModel

namespace LangModel

theorem cleanPairs_all_valid {α : Type} (alpha : List String) :
    ∀ l : List (String × α), (∀ p ∈ l, p.1 ∈ alpha) →
      cleanPairs alpha l = .ok (l.map fun p => (cleanSymbol p.1, p.2)) := by
  intro l
  induction l with
  | nil => intro _; rfl
  | cons p rest ih =>
      intro hall
      obtain ⟨sym, pr⟩ := p
      have hs : sym ∈ alpha := hall (sym, pr) (List.mem_cons_self _ _)
      have hrest := ih (fun q hq => hall q (List.mem_cons_of_mem _ hq))
      simp [cleanPairs, hs, hrest]

theorem cleanPairs_invalid {α : Type} (alpha : List String) :
    ∀ l : List (String × α), (∃ p ∈ l, p.1 ∉ alpha) →
      cleanPairs alpha l = .error .EvidenceDataStructError := by
  intro l
  induction l with
  | nil => intro h; simp at h
  | cons p rest ih =>
      intro hex
      obtain ⟨sym, pr⟩ := p
      by_cases hs : sym ∈ alpha
      · have hex' : ∃ q ∈ rest, q.1 ∉ alpha := by
          rcases hex with ⟨q, hq, hqa⟩
          rcases List.mem_cons.mp hq with hq | hq
          · exact absurd hs (by rw [hq] at hqa; exact hqa)
          · exact ⟨q, hq, hqa⟩
        simp [cleanPairs, hs, ih hex']
      · simp [cleanPairs, hs]

theorem cleanEvidence_all_valid {α : Type} (alpha : List String) :
    ∀ ev : List (List (String × α)), (∀ l ∈ ev, ∀ p ∈ l, p.1 ∈ alpha) →
      cleanEvidence alpha ev =
        .ok (ev.map fun l => l.map fun p => (cleanSymbol p.1, p.2)) := by
  intro ev
  induction ev with
  | nil => intro _; rfl
  | cons l rest ih =>
      intro hall
      have hl := cleanPairs_all_valid alpha l (hall l (List.mem_cons_self _ _))
      have hrest := ih (fun m hm => hall m (List.mem_cons_of_mem _ hm))
      simp [cleanEvidence, hl, hrest]

theorem cleanEvidence_invalid {α : Type} (alpha : List String) :
    ∀ ev : List (List (String × α)), (∃ l ∈ ev, ∃ p ∈ l, p.1 ∉ alpha) →
      cleanEvidence alpha ev = .error .EvidenceDataStructError := by
  intro ev
  induction ev with
  | nil => intro h; simp at h
  | cons l rest ih =>
      intro hex
      by_cases hl : ∃ p ∈ l, p.1 ∉ alpha
      · simp [cleanEvidence, cleanPairs_invalid alpha l hl]
      · push_neg at hl
        have hlv := cleanPairs_all_valid alpha l (fun p hp => hl p hp)
        have hex' : ∃ m ∈ rest, ∃ p ∈ m, p.1 ∉ alpha := by
          rcases hex with ⟨m, hm, q, hq, hqa⟩
          rcases List.mem_cons.mp hm with hm | hm
          · exact absurd (hl q (hm ▸ hq)) hqa
          · exact ⟨m, hm, q, hq, hqa⟩
        simp [cleanEvidence, hlv, ih hex']

/-- C10: state_update raises EvidenceDataStructError exactly when some
(symbol, probability) pair carries a symbol outside the alphabet, and
otherwise the cleaned evidence sent to the server maps each pair
elementwise — "_" becomes "#", every other symbol is lowercased, and
probabilities and order are unchanged. -/
theorem c10_state_update_cleaning {α : Type} (alpha : List String) :
    (∀ (evidence : List (List (String × α))) (mode : String),
       stateUpdateRequest alpha evidence mode = .error .EvidenceDataStructError ↔
         ∃ l ∈ evidence, ∃ p ∈ l, p.1 ∉ alpha) ∧
    (∀ (evidence : List (List (String × α))) (mode : String),
       (∀ l ∈ evidence, ∀ p ∈ l, p.1 ∈ alpha) →
       stateUpdateRequest alpha evidence mode =
         .ok (evidence.map (fun l => l.map fun p => (cleanSymbol p.1, p.2)),
           mode)) := by
  constructor
  · intro evidence mode
    constructor
    · intro herr
      by_contra hnex
      push_neg at hnex
      have hok := cleanEvidence_all_valid alpha evidence
        (fun l hl p hp => hnex l hl p hp)
      rw [stateUpdateRequest, hok] at herr
      exact absurd herr (by simp)
    · intro hex
      rw [stateUpdateRequest, cleanEvidence_invalid alpha evidence hex]
  · intro evidence mode hall
    rw [stateUpdateRequest, cleanEvidence_all_valid alpha evidence hall]

/-- Concrete instance of the C10 theorem. -/
theorem c10_state_update_cleaning_witness :
    stateUpdateRequest ["A", "_"] [[("A", (1 : ℚ)), ("_", 2)]] "letter" =
      .ok ([[("a", (1 : ℚ)), ("#", 2)]], "letter") := by
  rw [(c10_state_update_cleaning ["A", "_"]).2 [[("A", (1 : ℚ)), ("_", 2)]]
    "letter" (by decide)]
  rfl

/-- C9: init raises NBestError for every non-int nbest, NBestHighValue for
every int nbest strictly greater than 4, and for int nbest at most 4 no
error is raised and the domain attribute is set to the given string. -/
theorem c9_init_validation {α : Type} (st : LMState α) (domain : String) :
    (∀ v : PyVal, (∀ n : Int, v ≠ .vint n) →
       (init st domain v).2 = some .NBestError) ∧
    (∀ n : Int, 4 < n → (init st domain (.vint n)).2 = some .NBestHighValue) ∧
    (∀ n : Int, n ≤ 4 →
       (init st domain (.vint n)).2 = none ∧
       (init st domain (.vint n)).1.domain = some domain) := by
  refine ⟨?_, ?_, ?_⟩
  · intro v hv
    cases v with
    | vint n => exact absurd rfl (hv n)
    | vstr s => rfl
    | vnone => rfl
  · intro n hn
    simp [init, hn]
  · intro n hn
    have hle : ¬ (4 < n) := by omega
    exact ⟨by simp [init, hle], by simp [init, hle]⟩

/-- Concrete instance of the C9 theorem. -/
theorem c9_init_validation_witness :
    (init (initialState ℚ) "log" (.vint 5)).2 = some .NBestHighValue :=
  (c9_init_validation (initialState ℚ) "log").2.1 5 (by decide)

/-- C8 counterexample: the priors dictionary is not "cleared only by an
explicit reset operation" and does not accumulate — reset leaves the
dictionary untouched, while a single __return_priors call (as performed
by every state_update) discards the previously stored entries without any
reset. -/
theorem c8_priors_claim_counterexample :
    reset (α := ℚ) ⟨some "log", [("letter", [("A", 1)])]⟩ =
      ⟨some "log", [("letter", [("A", 1)])]⟩ ∧
    returnPriors (α := ℚ) id ⟨some "log", [("letter", [("A", 1)])]⟩
        ⟨[("b", 2)], []⟩ "letter" =
      some (⟨some "log", [("letter", [("B", 2)])]⟩,
        [("letter", [("B", 2)])]) := by
  exact ⟨rfl, by decide⟩

/-- C8 amended: the priors dictionary is per-instance state that is
replaced by a fresh dictionary on every __return_priors call — the
resulting dictionary is independent of the previously stored priors,
holds at most the keys "letter" and "word", and the local reset method
leaves the instance state unchanged. -/
theorem c8_priors_replaced_per_call {α : Type} (expNeg : α → α) :
    (∀ (st st' : LMState α) (out : LMOutput α) (mode : String),
       st.domain = st'.domain →
       (returnPriors expNeg st out mode).map (fun q => q.2) =
         (returnPriors expNeg st' out mode).map (fun q => q.2)) ∧
    (∀ (st st1 : LMState α) (out : LMOutput α) (mode : String)
       (pr : List (String × List (String × α))),
       returnPriors expNeg st out mode = some (st1, pr) →
       st1.priors = pr ∧
         (pr.map Prod.fst = ["letter"] ∨
           pr.map Prod.fst = ["letter", "word"])) ∧
    (∀ st : LMState α, reset st = st) := by
  refine ⟨?_, ?_, fun st => rfl⟩
  · intro st st' out mode hdom
    unfold returnPriors
    rw [hdom]
  · intro st st1 out mode pr hret
    unfold returnPriors at hret
    cases hd : st.domain with
    | none => rw [hd] at hret; exact absurd hret (by simp)
    | some dom =>
        rw [hd] at hret
        simp only [Option.some.injEq, Prod.mk.injEq] at hret
        obtain ⟨hst1, hpr⟩ := hret
        constructor
        · rw [← hst1, ← hpr]
        · rw [← hpr]
          by_cases hm : mode = "letter"
          · left; simp [hm]
          · right; simp [hm]

/-- Concrete instance of the C8 amended theorem. -/
theorem c8_priors_replaced_per_call_witness :
    (returnPriors (α := ℚ) id ⟨some "log", [("letter", [("A", 1)])]⟩
        ⟨[("b", 2)], []⟩ "letter").map (fun q => q.2) =
      (returnPriors (α := ℚ) id ⟨some "log", []⟩
        ⟨[("b", 2)], []⟩ "letter").map (fun q => q.2) :=
  (c8_priors_replaced_per_call id).1 ⟨some "log", [("letter", [("A", 1)])]⟩
    ⟨some "log", []⟩ ⟨[("b", 2)], []⟩ "letter" rfl

end LangModel
